import Mathlib

/-!
Shallow embedding of `src/libhttp/buffer.rs` (rust-http): the `BufferedStream<T>`
type and its operations (`new`, `poke_byte`, `fill_buffer`, `read_byte`, `read`,
`eof`, `write`, `flush`).

Modelling choices:
* Bytes are `Nat`; the fixed-capacity arrays `read_buffer` / `write_buffer` are
  modelled as total functions `Nat → Nat` (index to byte), updated pointwise,
  exactly as the Rust code updates the arrays in place.
* The wrapped stream `T : Reader + Writer` is an abstract state type `σ`
  together with an `Underlying σ` record of its four operations, mirroring the
  trait bounds.  `read` hands back the bytes it deposited at the start of the
  passed buffer (their count is the returned `uint`); `none` models the
  exhaustion signal.
* `fail!` in `poke_byte` is modelled by an `Option` result (`none` = fatal
  precondition violation); the match in the source raises before any field is
  assigned, and the model likewise returns `none` without touching the state.
* Concrete instantiations used to observe behaviour: `ScriptStream` (a script
  of read chunks plus a log of the byte slices passed to the underlying
  `write`), `ZeroStream` (a reader that always answers `Some(0)` bytes) and
  `ByteStream` (a reader over a plain byte list).
-/

namespace Http

/-- static READ_BUF_SIZE: uint = 0x10000 -/
def READ_BUF_SIZE : Nat := 0x10000

/-- static WRITE_BUF_SIZE: uint = 0x10000 -/
def WRITE_BUF_SIZE : Nat := 0x10000

/-- Operations of the wrapped stream type `T : Reader + Writer`.
`read` returns the bytes it wrote at the start of the passed buffer
(`none` = exhaustion) together with the stream's next state. -/
structure Underlying (σ : Type) where
  read : σ → Option (List Nat) × σ
  write : σ → List Nat → σ
  flush : σ → σ
  eof : σ → Bool

/-- struct BufferedStream<T> of buffer.rs. -/
structure BufferedStream (σ : Type) where
  wrapped : σ
  read_buffer : Nat → Nat
  read_pos : Nat
  read_max : Nat
  write_buffer : Nat → Nat
  write_len : Nat
  call_wrapped_flush : Bool

variable {σ : Type}

/-- Pointwise array store: `buffer[i] = v`. -/
def updFn (f : Nat → Nat) (i v : Nat) : Nat → Nat :=
  fun j => if j = i then v else f j

/-- The first `n` bytes of a buffer, as a list: models `slice_to(n)` and
passing the (initial segment of the) array to the underlying stream. -/
def bufSlice (f : Nat → Nat) (n : Nat) : List Nat :=
  (List.range n).map f

/-- The `n` bytes of a buffer starting at offset `off`. -/
def bufSeg (f : Nat → Nat) (off n : Nat) : List Nat :=
  (List.range n).map (fun i => f (off + i))

/-- Models `ptr::copy_memory`: copy `src` into buffer `f` at offset `off`. -/
def copyInto (f : Nat → Nat) (off : Nat) (src : List Nat) : Nat → Nat :=
  fun j => if off ≤ j ∧ j < off + src.length then src.getD (j - off) 0 else f j

/-- BufferedStream::new. -/
def BufferedStream.new (w : σ) (cwf : Bool) : BufferedStream σ :=
  { wrapped := w
    read_buffer := fun _ => 0
    read_pos := 0
    read_max := 0
    write_buffer := fun _ => 0
    write_len := 0
    call_wrapped_flush := cwf }

/-- BufferedStream::poke_byte.  The source matches on `(read_pos, read_max)`;
in the `(0, _)` case it raises `fail!` before any field is assigned, modelled
by `none`.  In the other two cases the byte is stored at the (new) `read_pos`. -/
def BufferedStream.poke_byte (s : BufferedStream σ) (b : Nat) :
    Option (BufferedStream σ) :=
  match s.read_pos, s.read_max with
  | 0, 0 =>
      let s1 := { s with read_max := 1 }
      some { s1 with read_buffer := updFn s1.read_buffer s1.read_pos b }
  | 0, _ + 1 => none
  | _ + 1, _ =>
      let s1 := { s with read_pos := s.read_pos - 1 }
      some { s1 with read_buffer := updFn s1.read_buffer s1.read_pos b }

/-- BufferedStream::fill_buffer.  `wrapped.read(read_buffer)` deposits the
returned bytes at the start of the buffer; `None` resets both offsets and
reports failure. -/
def BufferedStream.fill_buffer (U : Underlying σ) (s : BufferedStream σ) :
    Bool × BufferedStream σ :=
  match U.read s.wrapped with
  | (none, w) => (false, { s with wrapped := w, read_pos := 0, read_max := 0 })
  | (some bs, w) =>
      (true, { s with wrapped := w
                      read_buffer := copyInto s.read_buffer 0 bs
                      read_pos := 0
                      read_max := bs.length })

/-- BufferedStream::read_byte.  The `&&` short-circuit of the source means
`fill_buffer` runs only when the buffer is drained. -/
def BufferedStream.read_byte (U : Underlying σ) (s : BufferedStream σ) :
    Option Nat × BufferedStream σ :=
  match (if s.read_pos = s.read_max then s.fill_buffer U else (true, s)) with
  | (false, s1) => (none, s1)
  | (true, s1) =>
      (some (s1.read_buffer s1.read_pos), { s1 with read_pos := s1.read_pos + 1 })

/-- Reader::read for BufferedStream.  `destLen` is `buf.len()` of the
destination slice; the returned list is the bytes copied into it (its length
is the returned count). -/
def BufferedStream.read (U : Underlying σ) (s : BufferedStream σ) (destLen : Nat) :
    Option (List Nat) × BufferedStream σ :=
  match (if s.read_pos = s.read_max then s.fill_buffer U else (true, s)) with
  | (false, s1) => (none, s1)
  | (true, s1) =>
      let size := min (s1.read_max - s1.read_pos) destLen
      (some (bufSeg s1.read_buffer s1.read_pos size),
       { s1 with read_pos := s1.read_pos + size })

/-- Reader::eof for BufferedStream: `read_pos == read_max && wrapped.eof()`. -/
def BufferedStream.eof (U : Underlying σ) (s : BufferedStream σ) : Bool :=
  (s.read_pos == s.read_max) && U.eof s.wrapped

/-- Writer::write for BufferedStream. -/
def BufferedStream.write (U : Underlying σ) (s : BufferedStream σ)
    (buf : List Nat) : BufferedStream σ :=
  if buf.length + s.write_len > WRITE_BUF_SIZE then
    let s1 :=
      if s.write_len > 0 then
        { s with wrapped := U.write s.wrapped (bufSlice s.write_buffer s.write_len)
                 write_len := 0 }
      else s
    { s1 with wrapped := U.write s1.wrapped buf, write_len := 0 }
  else
    let s1 := { s with write_buffer := copyInto s.write_buffer s.write_len buf
                       write_len := s.write_len + buf.length }
    if s1.write_len = WRITE_BUF_SIZE then
      { s1 with wrapped := U.write s1.wrapped (bufSlice s1.write_buffer WRITE_BUF_SIZE)
                write_len := 0 }
    else s1

/-- Writer::flush for BufferedStream. -/
def BufferedStream.flush (U : Underlying σ) (s : BufferedStream σ) :
    BufferedStream σ :=
  let s1 :=
    if s.write_len > 0 then
      { s with wrapped := U.write s.wrapped (bufSlice s.write_buffer s.write_len)
               write_len := 0 }
    else s
  if s1.call_wrapped_flush then { s1 with wrapped := U.flush s1.wrapped } else s1

/-- The data-model invariant of the spec:
`read_pos ≤ read_max ≤ READ_CAP` and `write_len ≤ WRITE_CAP`. -/
def invariant (s : BufferedStream σ) : Prop :=
  s.read_pos ≤ s.read_max ∧ s.read_max ≤ READ_BUF_SIZE ∧
    s.write_len ≤ WRITE_BUF_SIZE

instance (s : BufferedStream σ) : Decidable (invariant s) := by
  unfold invariant; infer_instance

/-- A concrete wrapped stream: a script of read chunks (one chunk per
underlying read call, `none` once the script is exhausted) and a log of the
byte slices passed to the underlying `write`, in order. -/
structure ScriptStream where
  chunks : List (List Nat)
  written : List (List Nat)

/-- The `Underlying` operations of a `ScriptStream`. -/
def SU : Underlying ScriptStream where
  read := fun s =>
    match s.chunks with
    | [] => (none, s)
    | c :: rest => (some c, { s with chunks := rest })
  write := fun s buf => { s with written := s.written ++ [buf] }
  flush := fun s => s
  eof := fun s => s.chunks.isEmpty

/-- A wrapped stream whose read always succeeds with zero bytes (`Some(0)`). -/
def ZeroStream : Underlying Unit where
  read := fun _ => (some [], ())
  write := fun s _ => s
  flush := fun s => s
  eof := fun _ => false

/-- A wrapped stream over a plain byte list: each read yields at least one
byte (capped at the buffer capacity) until the list is exhausted. -/
def ByteStream : Underlying (List Nat) where
  read := fun s =>
    match s with
    | [] => (none, [])
    | a :: l => (some ((a :: l).take READ_BUF_SIZE), (a :: l).drop READ_BUF_SIZE)
  write := fun s _ => s
  flush := fun s => s
  eof := fun s => s.isEmpty

/-- A small concrete `BufferedStream Unit` with the given read offsets,
zeroed buffers and an empty write buffer; used to instantiate theorems. -/
def stU (p m : Nat) : BufferedStream Unit :=
  { wrapped := ()
    read_buffer := fun _ => 0
    read_pos := p
    read_max := m
    write_buffer := fun _ => 0
    write_len := 0
    call_wrapped_flush := true }

/-- A fresh buffered stream over an empty script. -/
def s0S : BufferedStream ScriptStream := BufferedStream.new ⟨[], []⟩ true

/-- A buffered stream whose write buffer is exactly full. -/
def sFull : BufferedStream ScriptStream := { s0S with write_len := WRITE_BUF_SIZE }

/-- The state reached from a fresh stream over the script `[[9], []]` after
one `read_byte` (which returned 9): `read_pos = read_max = 1`, the next
underlying read will succeed with zero bytes. -/
def c10state : BufferedStream ScriptStream :=
  (BufferedStream.read_byte SU (BufferedStream.new ⟨[[9], []], []⟩ true)).2

/-- Bytes the writer side has observably accepted, in order: the slices
already delivered to the underlying stream, then the pending buffered
region `[0, write_len)`. -/
def writeOut (s : BufferedStream ScriptStream) : List Nat :=
  s.wrapped.written.flatten ++ bufSlice s.write_buffer s.write_len

/-- Iterate `read_byte` `n` times, collecting the returned values in order
and threading the state. -/
def readBytesN (U : Underlying σ) : Nat → BufferedStream σ →
    List (Option Nat) × BufferedStream σ
  | 0, s => ([], s)
  | n + 1, s =>
      ((BufferedStream.read_byte U s).1 ::
        (readBytesN U n (BufferedStream.read_byte U s).2).1,
       (readBytesN U n (BufferedStream.read_byte U s).2).2)

/-- C8: `eof()` returns true iff the read buffer is drained
(`read_pos = read_max`) and the underlying stream reports exhaustion; in
particular it is false whenever unread buffered bytes remain, even if the
underlying stream is exhausted.  The model's `eof` returns only a `Bool` and
leaves the state untouched, mirroring that the source reads but never writes
the fields. -/
theorem eof_iff_drained_and_exhausted (U : Underlying σ) (s : BufferedStream σ) :
    s.eof U = true ↔ (s.read_pos = s.read_max ∧ U.eof s.wrapped = true) := by
  simp [BufferedStream.eof]

/-- C6: `poke_byte b` by cases on `(read_pos, read_max)`: at `(0, 0)` it sets
`read_max = 1` and stores `b` at index 0; at `(0, m+1)` it fails fatally with
no field modified; otherwise it decrements `read_pos` and stores `b` at the
new `read_pos`. -/
theorem poke_byte_cases (s : BufferedStream σ) (b : Nat) :
    (s.read_pos = 0 → s.read_max = 0 →
      s.poke_byte b =
        some { s with read_max := 1, read_buffer := updFn s.read_buffer 0 b }) ∧
    (s.read_pos = 0 → 0 < s.read_max → s.poke_byte b = none) ∧
    (0 < s.read_pos →
      s.poke_byte b =
        some { s with read_pos := s.read_pos - 1,
                      read_buffer := updFn s.read_buffer (s.read_pos - 1) b }) := by
  obtain ⟨w, f, p, m, g, wl, cwf⟩ := s
  refine ⟨?_, ?_, ?_⟩
  · rintro rfl rfl
    simp [BufferedStream.poke_byte]
  · rintro rfl hm
    rcases m with _ | m'
    · exact absurd hm (by simp)
    · simp [BufferedStream.poke_byte]
  · intro hp
    rcases p with _ | k
    · exact absurd hp (by simp)
    · simp [BufferedStream.poke_byte]

/-- Witness for C6: the three cases at concrete states. -/
theorem poke_byte_cases_witness :
    ((stU 0 0).poke_byte 7 =
      some { stU 0 0 with read_max := 1,
                          read_buffer := updFn (stU 0 0).read_buffer 0 7 }) ∧
    ((stU 0 2).poke_byte 7 = none) ∧
    ((stU 2 3).poke_byte 7 =
      some { stU 2 3 with read_pos := 1,
                          read_buffer := updFn (stU 2 3).read_buffer 1 7 }) :=
  ⟨(poke_byte_cases (stU 0 0) 7).1 rfl rfl,
   (poke_byte_cases (stU 0 2) 7).2.1 rfl (by decide),
   (poke_byte_cases (stU 2 3) 7).2.2 (by decide)⟩

/-- C7: whenever `poke_byte b` succeeds (on an invariant-satisfying state),
the very next `read_byte` returns `b`, before any other buffered or freshly
fetched byte. -/
theorem poke_byte_then_read_byte (U : Underlying σ) (s : BufferedStream σ)
    (hs : s.read_pos ≤ s.read_max) (b : Nat) (s' : BufferedStream σ)
    (hp : s.poke_byte b = some s') :
    (BufferedStream.read_byte U s').1 = some b := by
  obtain ⟨w, f, p, m, g, wl, cwf⟩ := s
  rcases p with _ | k
  · rcases m with _ | m'
    · simp only [BufferedStream.poke_byte] at hp
      obtain rfl := Option.some.injEq .. ▸ hp
      simp [BufferedStream.read_byte, updFn]
    · simp [BufferedStream.poke_byte] at hp
  · simp only [BufferedStream.poke_byte] at hp
    obtain rfl := Option.some.injEq .. ▸ hp
    have hkm : k ≠ m := by
      simp only at hs; omega
    simp [BufferedStream.read_byte, hkm, updFn]

/-- Witness for C7: pushing 7 back into a fresh drained buffer and reading it
again returns 7. -/
theorem poke_byte_then_read_byte_witness :
    (stU 0 0).read_pos ≤ (stU 0 0).read_max ∧
    (BufferedStream.read_byte ZeroStream
      { stU 0 0 with read_max := 1,
                     read_buffer := updFn (stU 0 0).read_buffer 0 7 }).1 = some 7 :=
  ⟨by decide, poke_byte_then_read_byte ZeroStream (stU 0 0) (by decide) 7 _ rfl⟩

/-- C9: flush is idempotent: provided the underlying stream's own flush is
idempotent (the externally-assumed contract named by the spec), flushing twice
with no intervening writes yields exactly the same `BufferedStream` state —
and hence the same bytes delivered to the underlying stream — as flushing
once. -/
theorem flush_flush (U : Underlying σ)
    (hfl : ∀ w, U.flush (U.flush w) = U.flush w) (s : BufferedStream σ) :
    BufferedStream.flush U (BufferedStream.flush U s) = BufferedStream.flush U s := by
  obtain ⟨w, f, p, m, g, wl, cwf⟩ := s
  unfold BufferedStream.flush
  rcases wl with _ | wl' <;> rcases cwf <;> simp [hfl]

/-- Witness for C9: the script stream's flush is the identity, hence
idempotent, and flushing a fresh buffered stream twice equals flushing once. -/
theorem flush_flush_witness :
    (∀ w, SU.flush (SU.flush w) = SU.flush w) ∧
    BufferedStream.flush SU
        (BufferedStream.flush SU (BufferedStream.new (⟨[], []⟩ : ScriptStream) true)) =
      BufferedStream.flush SU (BufferedStream.new (⟨[], []⟩ : ScriptStream) true) :=
  ⟨fun _ => rfl,
   flush_flush SU (fun _ => rfl) (BufferedStream.new (⟨[], []⟩ : ScriptStream) true)⟩

/-- C4: write(src) by cases.  If `src.length + write_len > WRITE_CAP`: the
buffered region `[0, write_len)` is sent first (only when `write_len > 0`),
then `src` itself as exactly one further underlying write, and `write_len`
ends at 0.  Otherwise `src` is copied into `write_buffer` at offset
`write_len`, `write_len` advances by `src.length`, and exactly when it then
equals `WRITE_CAP` the full buffer is sent and `write_len` resets to 0. -/
theorem write_cases (s : BufferedStream ScriptStream) (buf : List Nat) :
    (buf.length + s.write_len > WRITE_BUF_SIZE →
      (BufferedStream.write SU s buf).wrapped.written =
          s.wrapped.written ++
            (if 0 < s.write_len then [bufSlice s.write_buffer s.write_len] else []) ++
            [buf] ∧
        (BufferedStream.write SU s buf).write_len = 0) ∧
    (buf.length + s.write_len ≤ WRITE_BUF_SIZE →
      (BufferedStream.write SU s buf).write_buffer =
          copyInto s.write_buffer s.write_len buf ∧
        (if s.write_len + buf.length = WRITE_BUF_SIZE then
          (BufferedStream.write SU s buf).wrapped.written =
              s.wrapped.written ++
                [bufSlice (copyInto s.write_buffer s.write_len buf) WRITE_BUF_SIZE] ∧
            (BufferedStream.write SU s buf).write_len = 0
        else
          (BufferedStream.write SU s buf).wrapped.written = s.wrapped.written ∧
            (BufferedStream.write SU s buf).write_len = s.write_len + buf.length)) := by
  obtain ⟨⟨cs, wr⟩, f, p, m, g, wl, cwf⟩ := s
  constructor
  · intro h
    by_cases h0 : 0 < wl <;>
      simp [BufferedStream.write, h, h0, SU, List.append_assoc]
  · intro h
    replace h : buf.length + wl ≤ WRITE_BUF_SIZE := h
    have h' : ¬ buf.length + wl > WRITE_BUF_SIZE := by omega
    by_cases hc : wl + buf.length = WRITE_BUF_SIZE <;>
      simp [BufferedStream.write, h', hc, SU]

/-- Witness for C4: a write overflowing a full write buffer sends the
buffered region and then the new bytes unbuffered; a small write on a fresh
stream is merely copied into the buffer. -/
theorem write_cases_witness :
    (([1, 2] : List Nat).length + sFull.write_len > WRITE_BUF_SIZE ∧
      ((BufferedStream.write SU sFull [1, 2]).wrapped.written =
          sFull.wrapped.written ++
            (if 0 < sFull.write_len then [bufSlice sFull.write_buffer sFull.write_len] else []) ++
            [[1, 2]] ∧
        (BufferedStream.write SU sFull [1, 2]).write_len = 0)) ∧
    (([3] : List Nat).length + s0S.write_len ≤ WRITE_BUF_SIZE ∧
      ((BufferedStream.write SU s0S [3]).write_buffer =
          copyInto s0S.write_buffer s0S.write_len [3] ∧
        (if s0S.write_len + ([3] : List Nat).length = WRITE_BUF_SIZE then
          (BufferedStream.write SU s0S [3]).wrapped.written =
              s0S.wrapped.written ++
                [bufSlice (copyInto s0S.write_buffer s0S.write_len [3]) WRITE_BUF_SIZE] ∧
            (BufferedStream.write SU s0S [3]).write_len = 0
        else
          (BufferedStream.write SU s0S [3]).wrapped.written = s0S.wrapped.written ∧
            (BufferedStream.write SU s0S [3]).write_len =
              s0S.write_len + ([3] : List Nat).length))) := by
  have hbig : ([1, 2] : List Nat).length + sFull.write_len > WRITE_BUF_SIZE := by
    show 2 + WRITE_BUF_SIZE > WRITE_BUF_SIZE
    decide
  have hsmall : ([3] : List Nat).length + s0S.write_len ≤ WRITE_BUF_SIZE := by
    show 1 + 0 ≤ WRITE_BUF_SIZE
    decide
  exact ⟨⟨hbig, (write_cases sFull [1, 2]).1 hbig⟩,
         ⟨hsmall, (write_cases s0S [3]).2 hsmall⟩⟩

/-- C5: read(dest) by cases.  On a drained buffer it performs exactly one
underlying fill: if the script is exhausted it returns `none`; otherwise it
serves `min` of the freshly filled count and `destLen` bytes.  On a
non-drained buffer it touches the underlying stream not at all and copies
exactly `min (read_max - read_pos) destLen` bytes, advancing `read_pos` by
that count and returning it — it never loops to fill a large destination. -/
theorem read_cases (s : BufferedStream ScriptStream) (hs : s.read_pos ≤ s.read_max)
    (destLen : Nat) :
    (s.read_pos = s.read_max → s.wrapped.chunks = [] →
      BufferedStream.read SU s destLen =
        (none, { s with read_pos := 0, read_max := 0 })) ∧
    (s.read_pos = s.read_max → ∀ c rest, s.wrapped.chunks = c :: rest →
      (bufSeg (copyInto s.read_buffer 0 c) 0 (min c.length destLen)).length =
          min c.length destLen ∧
      BufferedStream.read SU s destLen =
        (some (bufSeg (copyInto s.read_buffer 0 c) 0 (min c.length destLen)),
         { s with wrapped := { s.wrapped with chunks := rest },
                  read_buffer := copyInto s.read_buffer 0 c,
                  read_pos := min c.length destLen,
                  read_max := c.length })) ∧
    (s.read_pos ≠ s.read_max →
      (bufSeg s.read_buffer s.read_pos (min (s.read_max - s.read_pos) destLen)).length =
          min (s.read_max - s.read_pos) destLen ∧
      BufferedStream.read SU s destLen =
        (some (bufSeg s.read_buffer s.read_pos (min (s.read_max - s.read_pos) destLen)),
         { s with read_pos :=
             s.read_pos + min (s.read_max - s.read_pos) destLen })) := by
  obtain ⟨⟨cs, wr⟩, f, p, m, g, wl, cwf⟩ := s
  refine ⟨?_, ?_, ?_⟩
  · intro hpm hcs
    simp only at hpm hcs
    subst hpm hcs
    simp [BufferedStream.read, BufferedStream.fill_buffer, SU]
  · intro hpm c rest hcs
    simp only at hpm hcs
    subst hpm hcs
    simp [BufferedStream.read, BufferedStream.fill_buffer, SU, bufSeg]
  · intro hpm
    simp only at hpm
    simp [BufferedStream.read, hpm, bufSeg]

/-- Witness for C5: the three cases of `read` at concrete states. -/
theorem read_cases_witness :
    (s0S.read_pos ≤ s0S.read_max ∧ s0S.wrapped.chunks = [] ∧
      BufferedStream.read SU s0S 2 = (none, { s0S with read_pos := 0, read_max := 0 })) ∧
    ((BufferedStream.new (⟨[[1, 2, 3]], []⟩ : ScriptStream) true).read_pos ≤
        (BufferedStream.new (⟨[[1, 2, 3]], []⟩ : ScriptStream) true).read_max ∧
      (BufferedStream.read SU (BufferedStream.new (⟨[[1, 2, 3]], []⟩ : ScriptStream) true) 2).1 =
        some (bufSeg
          (copyInto (BufferedStream.new (⟨[[1, 2, 3]], []⟩ : ScriptStream) true).read_buffer
            0 [1, 2, 3]) 0 (min ([1, 2, 3] : List Nat).length 2))) := by
  have h1 := (read_cases s0S (by decide) 2).1 rfl rfl
  have h2 := (read_cases (BufferedStream.new (⟨[[1, 2, 3]], []⟩ : ScriptStream) true)
    (by decide) 2).2.1 rfl [1, 2, 3] [] rfl
  exact ⟨⟨by decide, rfl, h1⟩, ⟨by decide, by rw [h2.2]⟩⟩

/-- The `ByteStream` read contract: every successful read yields at least one
byte and at most the read capacity. -/
theorem ByteStream_read_bounds :
    ∀ w c w', ByteStream.read w = (some c, w') →
      1 ≤ c.length ∧ c.length ≤ READ_BUF_SIZE := by
  intro w c w' h
  cases w with
  | nil => exact absurd (congrArg Prod.fst h) (by simp [ByteStream])
  | cons a l =>
    have h1 : some ((a :: l).take READ_BUF_SIZE) = some c :=
      congrArg Prod.fst h
    obtain rfl : (a :: l).take READ_BUF_SIZE = c := Option.some.inj h1
    constructor
    · simp only [List.length_take, List.length_cons]
      have : 1 ≤ READ_BUF_SIZE := by decide
      omega
    · simp only [List.length_take]
      omega

/-- Counterexample to C3 as stated: `ZeroStream` obeys the stated assumption
(every read returns at most the passed buffer's length — indeed always zero
bytes), the fresh stream satisfies the invariants, yet one `read_byte` leaves
`read_pos = 1 > read_max = 0`. -/
theorem invariant_broken_by_empty_read :
    (∀ w c w', ZeroStream.read w = (some c, w') → c.length ≤ READ_BUF_SIZE) ∧
    invariant (BufferedStream.new () true) ∧
    ¬ invariant (BufferedStream.read_byte ZeroStream (BufferedStream.new () true)).2 := by
  refine ⟨?_, by decide, by decide⟩
  intro w c w' h
  have h1 : some ([] : List Nat) = some c := congrArg Prod.fst h
  obtain rfl : ([] : List Nat) = c := Option.some.inj h1
  decide

/-- C3 amended: the invariants `read_pos ≤ read_max ≤ READ_CAP` and
`write_len ≤ WRITE_CAP` hold on the freshly constructed stream and are
preserved by `read_byte`, `read`, `poke_byte` (when it succeeds), `write` and
`flush` — and trivially by `eof`, which returns a `Bool` and leaves every
field untouched — assuming the underlying read returns at least one byte and
at most the passed buffer's length on success.  (The count may not be zero:
a successful zero-byte underlying read makes `read_byte` set
`read_pos = 1 > read_max = 0`.) -/
theorem invariant_preserved (U : Underlying σ)
    (hU : ∀ w c w', U.read w = (some c, w') →
      1 ≤ c.length ∧ c.length ≤ READ_BUF_SIZE)
    (s : BufferedStream σ) (hs : invariant s) (w0 : σ) (cwf : Bool) (b : Nat)
    (buf : List Nat) (n : Nat) :
    invariant (BufferedStream.new w0 cwf) ∧
    invariant (BufferedStream.read_byte U s).2 ∧
    invariant (BufferedStream.read U s n).2 ∧
    (∀ s', s.poke_byte b = some s' → invariant s') ∧
    invariant (BufferedStream.write U s buf) ∧
    invariant (BufferedStream.flush U s) := by
  obtain ⟨w, f, p, m, g, wl, cwf0⟩ := s
  obtain ⟨hs1, hs2, hs3⟩ := hs
  simp only at hs1 hs2 hs3
  refine ⟨by simp [invariant, BufferedStream.new, READ_BUF_SIZE, WRITE_BUF_SIZE], ?_, ?_, ?_, ?_, ?_⟩
  · by_cases hpm : p = m
    · rcases hr : U.read w with ⟨_ | c, w'⟩
      · simp [BufferedStream.read_byte, BufferedStream.fill_buffer, hpm, hr, invariant]
        omega
      · have hc := hU _ _ _ hr
        simp [BufferedStream.read_byte, BufferedStream.fill_buffer, hpm, hr, invariant]
        omega
    · simp [BufferedStream.read_byte, hpm, invariant]
      omega
  · by_cases hpm : p = m
    · rcases hr : U.read w with ⟨_ | c, w'⟩
      · simp [BufferedStream.read, BufferedStream.fill_buffer, hpm, hr, invariant]
        omega
      · have hc := hU _ _ _ hr
        simp [BufferedStream.read, BufferedStream.fill_buffer, hpm, hr, invariant]
        omega
    · simp [BufferedStream.read, hpm, invariant]
      omega
  · intro s' hp
    rcases p with _ | k
    · rcases m with _ | m'
      · simp only [BufferedStream.poke_byte] at hp
        obtain rfl := Option.some.inj hp
        simp [invariant, READ_BUF_SIZE]
        omega
      · simp [BufferedStream.poke_byte] at hp
    · simp only [BufferedStream.poke_byte] at hp
      obtain rfl := Option.some.inj hp
      simp only [invariant]
      refine ⟨by omega, hs2, hs3⟩
  · simp only [BufferedStream.write]
    split
    · split <;> simp [invariant] <;> omega
    · split <;> (simp_all [invariant]; try omega)
  · simp only [BufferedStream.flush]
    split
    · split <;> simp [invariant] <;> omega
    · split <;> simp [invariant] <;> omega

/-- Witness for C3 (amended): the `ByteStream` reader meets the strengthened
read contract, the initial state meets the invariant, and all operations
preserve it on a concrete two-byte stream. -/
theorem invariant_preserved_witness :
    (∀ w c w', ByteStream.read w = (some c, w') →
      1 ≤ c.length ∧ c.length ≤ READ_BUF_SIZE) ∧
    invariant (BufferedStream.new ([5, 6] : List Nat) true) ∧
    (invariant (BufferedStream.new ([] : List Nat) false) ∧
     invariant (BufferedStream.read_byte ByteStream
        (BufferedStream.new ([5, 6] : List Nat) true)).2 ∧
     invariant (BufferedStream.read ByteStream
        (BufferedStream.new ([5, 6] : List Nat) true) 1).2 ∧
     (∀ s', (BufferedStream.new ([5, 6] : List Nat) true).poke_byte 3 = some s' →
        invariant s') ∧
     invariant (BufferedStream.write ByteStream
        (BufferedStream.new ([5, 6] : List Nat) true) [1]) ∧
     invariant (BufferedStream.flush ByteStream
        (BufferedStream.new ([5, 6] : List Nat) true))) :=
  ⟨ByteStream_read_bounds, by decide,
   invariant_preserved ByteStream ByteStream_read_bounds
     (BufferedStream.new ([5, 6] : List Nat) true) (by decide) [] false 3 [1] 1⟩

/-- C10: if, with the read buffer drained, the underlying read returns a
successful count of zero bytes, `fill_buffer` reports success with
`read_pos = read_max = 0`, and the following `read_byte` does not signal
exhaustion: it returns the stale byte at index 0 of `read_buffer` (here the
9 fetched earlier) and leaves `read_pos = 1` while `read_max = 0`, violating
`read_pos ≤ read_max`. -/
theorem read_byte_after_empty_fill :
    ((c10state.fill_buffer SU).1 = true ∧
     (c10state.fill_buffer SU).2.read_pos = 0 ∧
     (c10state.fill_buffer SU).2.read_max = 0) ∧
    (BufferedStream.read_byte SU c10state).1 = some 9 ∧
    (BufferedStream.read_byte SU c10state).2.read_pos = 1 ∧
    (BufferedStream.read_byte SU c10state).2.read_max = 0 ∧
    ¬ invariant (BufferedStream.read_byte SU c10state).2 := by
  refine ⟨⟨rfl, rfl, rfl⟩, rfl, rfl, rfl, by decide⟩

/-- Mapping `getD` over the index range of a list recovers the list. -/
theorem map_getD_range (l : List Nat) :
    (List.range l.length).map (fun i => l.getD i 0) = l := by
  induction l with
  | nil => simp
  | cons a t ih =>
    rw [List.length_cons, List.range_succ_eq_map t.length, List.map_cons,
      List.map_map]
    have hcomp : ∀ i ∈ List.range t.length,
        ((fun i => (a :: t).getD i 0) ∘ Nat.succ) i = t.getD i 0 := by
      intro i _
      simp
    rw [List.map_congr_left hcomp, ih]
    rfl

/-- Reading back the first `off + |src|` buffer bytes after copying `src` in
at offset `off` yields the old first `off` bytes followed by `src`. -/
theorem bufSlice_copyInto (f : Nat → Nat) (off : Nat) (src : List Nat) :
    bufSlice (copyInto f off src) (off + src.length) = bufSlice f off ++ src := by
  unfold bufSlice
  rw [List.range_add off src.length, List.map_append, List.map_map]
  congr 1
  · refine List.map_congr_left ?_
    intro i hi
    have hio : i < off := List.mem_range.mp hi
    simp only [copyInto]
    rw [if_neg (by omega : ¬(off ≤ i ∧ i < off + src.length))]
  · have h : ∀ i ∈ List.range src.length,
        (copyInto f off src ∘ fun x => off + x) i = src.getD i 0 := by
      intro i hi
      have hi' : i < src.length := List.mem_range.mp hi
      simp only [Function.comp, copyInto]
      rw [if_pos ⟨Nat.le_add_right off i, by omega⟩]
      congr 1
      omega
    rw [List.map_congr_left h, map_getD_range]

/-- Every `write` call appends exactly its argument to the accepted bytes,
in every state and in all three branches of the source. -/
theorem writeOut_write (s : BufferedStream ScriptStream) (buf : List Nat) :
    writeOut (BufferedStream.write SU s buf) = writeOut s ++ buf := by
  obtain ⟨⟨cs, wr⟩, f, p, m, g, wl, cwf⟩ := s
  by_cases hov : buf.length + wl > WRITE_BUF_SIZE
  · by_cases h0 : wl > 0
    · simp [BufferedStream.write, hov, h0, writeOut, SU, bufSlice,
        List.append_assoc]
    · have hw0 : wl = 0 := by omega
      subst hw0
      have hov' : WRITE_BUF_SIZE < buf.length := by omega
      simp [BufferedStream.write, hov', writeOut, SU, bufSlice]
  · by_cases hc : wl + buf.length = WRITE_BUF_SIZE
    · have key : List.map (copyInto g wl buf) (List.range WRITE_BUF_SIZE) =
          List.map g (List.range wl) ++ buf := by
        rw [← hc]
        simpa [bufSlice] using bufSlice_copyInto g wl buf
      simp [BufferedStream.write, hov, hc, writeOut, SU, key, bufSlice,
        List.append_assoc]
    · simp [BufferedStream.write, hov, hc, writeOut, SU, bufSlice_copyInto]

/-- After a flush, everything accepted has been delivered to the underlying
stream. -/
theorem writeOut_flush (s : BufferedStream ScriptStream) :
    (BufferedStream.flush SU s).wrapped.written.flatten = writeOut s := by
  obtain ⟨⟨cs, wr⟩, f, p, m, g, wl, cwf⟩ := s
  by_cases h0 : wl > 0
  · rcases cwf <;> simp [BufferedStream.flush, h0, writeOut, SU, bufSlice]
  · have hw0 : wl = 0 := by omega
    subst hw0
    rcases cwf <;> simp [BufferedStream.flush, writeOut, SU, bufSlice]

/-- Folding a sequence of writes appends their concatenation. -/
theorem writeOut_foldl (srcs : List (List Nat)) (s : BufferedStream ScriptStream) :
    writeOut (srcs.foldl (fun acc b => BufferedStream.write SU acc b) s) =
      writeOut s ++ srcs.flatten := by
  induction srcs generalizing s with
  | nil => simp
  | cons c t ih => simp [List.foldl_cons, ih, writeOut_write, List.append_assoc]

/-- C1: for every sequence of writes whose total byte count does not exceed
the write capacity, followed by one explicit flush, the concatenation of the
byte slices passed to the underlying stream's write equals exactly the
concatenation of the written slices, in order. -/
theorem write_then_flush_exact (srcs : List (List Nat)) (cwf : Bool)
    (_h : (srcs.map List.length).sum ≤ WRITE_BUF_SIZE) :
    (BufferedStream.flush SU
        (srcs.foldl (fun acc b => BufferedStream.write SU acc b)
          (BufferedStream.new ⟨[], []⟩ cwf))).wrapped.written.flatten =
      srcs.flatten := by
  rw [writeOut_flush, writeOut_foldl]
  simp [writeOut, BufferedStream.new, bufSlice]

/-- Witness for C1: writing `[1,2]` then `[3,4,5]` and flushing delivers
exactly `1,2,3,4,5` to the underlying stream. -/
theorem write_then_flush_exact_witness :
    (([[1, 2], [3, 4, 5]] : List (List Nat)).map List.length).sum ≤ WRITE_BUF_SIZE ∧
    (BufferedStream.flush SU
        ([[1, 2], [3, 4, 5]].foldl (fun acc b => BufferedStream.write SU acc b)
          (BufferedStream.new ⟨[], []⟩ true))).wrapped.written.flatten =
      ([[1, 2], [3, 4, 5]] : List (List Nat)).flatten :=
  ⟨by decide, write_then_flush_exact [[1, 2], [3, 4, 5]] true (by decide)⟩

/-- On a non-drained buffer, `read_byte` serves the byte at `read_pos` and
advances, touching nothing else. -/
theorem read_byte_hit (U : Underlying σ) (s : BufferedStream σ)
    (h : s.read_pos ≠ s.read_max) :
    BufferedStream.read_byte U s =
      (some (s.read_buffer s.read_pos), { s with read_pos := s.read_pos + 1 }) := by
  simp [BufferedStream.read_byte, h]

/-- Serving `l.length` buffered bytes whose region agrees with `l`. -/
theorem readBytesN_agrees (U : Underlying σ) (l : List Nat) :
    ∀ s : BufferedStream σ,
      (∀ i, i < l.length → s.read_buffer (s.read_pos + i) = l.getD i 0) →
      s.read_pos + l.length ≤ s.read_max →
      readBytesN U l.length s =
        (l.map some, { s with read_pos := s.read_pos + l.length }) := by
  induction l with
  | nil =>
    intro s _ _
    simp [readBytesN]
  | cons a t ih =>
    intro s hagree hle
    obtain ⟨w, f, p, m, g, wl, cwf⟩ := s
    have hlen : p + (t.length + 1) ≤ m := by simpa using hle
    have hne : (⟨w, f, p, m, g, wl, cwf⟩ : BufferedStream σ).read_pos ≠
        (⟨w, f, p, m, g, wl, cwf⟩ : BufferedStream σ).read_max := by
      show p ≠ m
      omega
    simp only [List.length_cons, readBytesN, read_byte_hit U _ hne]
    have hagree' : ∀ i, i < t.length →
        (⟨w, f, p + 1, m, g, wl, cwf⟩ : BufferedStream σ).read_buffer
          ((⟨w, f, p + 1, m, g, wl, cwf⟩ : BufferedStream σ).read_pos + i) =
          t.getD i 0 := by
      intro i hi
      show f (p + 1 + i) = t.getD i 0
      have h2 : f (p + (i + 1)) = (a :: t).getD (i + 1) 0 :=
        hagree (i + 1) (by simp only [List.length_cons]; omega)
      rw [show p + 1 + i = p + (i + 1) by omega, h2]
      simp
    have hleX : (⟨w, f, p + 1, m, g, wl, cwf⟩ : BufferedStream σ).read_pos +
        t.length ≤ (⟨w, f, p + 1, m, g, wl, cwf⟩ : BufferedStream σ).read_max := by
      show p + 1 + t.length ≤ m
      omega
    rw [ih _ hagree' hleX]
    dsimp only
    have hfp : f p = a := by
      have h0 : f (p + 0) = (a :: t).getD 0 0 := hagree 0 (by simp)
      simpa using h0
    rw [hfp, show p + 1 + t.length = p + (t.length + 1) by omega]
    rfl

/-- Reading one whole chunk from a drained buffer: one fill, then the chunk's
bytes in order, ending drained again with the rest of the script pending. -/
theorem readBytesN_chunk (c : List Nat) (rest : List (List Nat))
    (s : BufferedStream ScriptStream) (hpm : s.read_pos = s.read_max)
    (hc : c ≠ []) (hch : s.wrapped.chunks = c :: rest) :
    readBytesN SU c.length s =
      (c.map some,
       { s with wrapped := { s.wrapped with chunks := rest },
                read_buffer := copyInto s.read_buffer 0 c,
                read_pos := c.length, read_max := c.length }) := by
  obtain ⟨⟨cs0, wr⟩, f, p, m, g, wl, cwf⟩ := s
  dsimp only at hpm hch ⊢
  subst hpm hch
  rcases c with _ | ⟨a, t⟩
  · exact absurd rfl hc
  · simp only [List.length_cons, readBytesN]
    have hrb : BufferedStream.read_byte SU
        (⟨⟨(a :: t) :: rest, wr⟩, f, p, p, g, wl, cwf⟩ : BufferedStream ScriptStream) =
        (some (copyInto f 0 (a :: t) 0),
         ⟨⟨rest, wr⟩, copyInto f 0 (a :: t), 1, (a :: t).length, g, wl, cwf⟩) := by
      simp [BufferedStream.read_byte, BufferedStream.fill_buffer, SU]
    rw [hrb]
    dsimp only
    have hagree : ∀ i, i < t.length →
        (⟨⟨rest, wr⟩, copyInto f 0 (a :: t), 1, (a :: t).length, g, wl,
          cwf⟩ : BufferedStream ScriptStream).read_buffer
          ((⟨⟨rest, wr⟩, copyInto f 0 (a :: t), 1, (a :: t).length, g, wl,
            cwf⟩ : BufferedStream ScriptStream).read_pos + i) = t.getD i 0 := by
      intro i hi
      dsimp only [copyInto]
      rw [if_pos ⟨by omega, by simp only [List.length_cons]; omega⟩]
      simp only [Nat.sub_zero]
      rw [show 1 + i = i + 1 by omega]
      simp
    have hle : (⟨⟨rest, wr⟩, copyInto f 0 (a :: t), 1, (a :: t).length, g, wl,
        cwf⟩ : BufferedStream ScriptStream).read_pos + t.length ≤
        (⟨⟨rest, wr⟩, copyInto f 0 (a :: t), 1, (a :: t).length, g, wl,
          cwf⟩ : BufferedStream ScriptStream).read_max := by
      dsimp only
      simp only [List.length_cons]
      omega
    rw [readBytesN_agrees SU t _ hagree hle]
    dsimp only
    have ha : copyInto f 0 (a :: t) 0 = a := by
      dsimp only [copyInto]
      rw [if_pos ⟨Nat.le_refl 0, by simp only [List.length_cons]; omega⟩]
      simp
    rw [ha, show 1 + t.length = t.length + 1 by omega]
    simp only [List.length_cons, List.map_cons]

/-- Splitting an iterated read. -/
theorem readBytesN_add (U : Underlying σ) (a b : Nat) :
    ∀ s : BufferedStream σ,
      readBytesN U (a + b) s =
        ((readBytesN U a s).1 ++ (readBytesN U b (readBytesN U a s).2).1,
         (readBytesN U b (readBytesN U a s).2).2) := by
  induction a with
  | zero =>
    intro s
    rw [Nat.zero_add]
    simp [readBytesN]
  | succ k ih =>
    intro s
    rw [Nat.succ_add]
    simp only [readBytesN, ih, List.cons_append]

/-- Draining a whole script of non-empty chunks returns exactly their
concatenation and ends drained with nothing pending. -/
theorem readBytesN_chunks (cs : List (List Nat)) (hne : ∀ c ∈ cs, c ≠ []) :
    ∀ s : BufferedStream ScriptStream, s.read_pos = s.read_max →
      s.wrapped.chunks = cs →
      (readBytesN SU cs.flatten.length s).1 = cs.flatten.map some ∧
      (readBytesN SU cs.flatten.length s).2.read_pos =
        (readBytesN SU cs.flatten.length s).2.read_max ∧
      (readBytesN SU cs.flatten.length s).2.wrapped.chunks = [] := by
  induction cs with
  | nil =>
    intro s hpm hch
    exact ⟨by simp [readBytesN], by simpa [readBytesN] using hpm,
      by simpa [readBytesN] using hch⟩
  | cons c t ih =>
    intro s hpm hch
    have hcne : c ≠ [] := hne c (by simp)
    have hlen : (c :: t).flatten.length = c.length + t.flatten.length := by
      simp
    rw [hlen, readBytesN_add, readBytesN_chunk c t s hpm hcne hch]
    dsimp only
    have hmid := ih (fun d hd => hne d (by simp [hd]))
      { wrapped := { chunks := t, written := s.wrapped.written },
        read_buffer := copyInto s.read_buffer 0 c, read_pos := c.length,
        read_max := c.length, write_buffer := s.write_buffer,
        write_len := s.write_len, call_wrapped_flush := s.call_wrapped_flush }
      rfl rfl
    refine ⟨?_, hmid.2.1, hmid.2.2⟩
    rw [hmid.1]
    simp

/-- C2: a fresh buffered stream over an underlying stream that yields a fixed
byte sequence split into chunks of at least one byte each and then signals
exhaustion returns, over repeated `read_byte` calls, exactly that sequence in
order; the next `read_byte` returns `none`. -/
theorem read_byte_sequence_exact (cs : List (List Nat)) (cwf : Bool)
    (hne : ∀ c ∈ cs, c ≠ []) :
    (readBytesN SU cs.flatten.length (BufferedStream.new ⟨cs, []⟩ cwf)).1 =
      cs.flatten.map some ∧
    (BufferedStream.read_byte SU
        (readBytesN SU cs.flatten.length (BufferedStream.new ⟨cs, []⟩ cwf)).2).1 =
      none := by
  obtain ⟨h1, h2, h3⟩ :=
    readBytesN_chunks cs hne (BufferedStream.new ⟨cs, []⟩ cwf) rfl rfl
  refine ⟨h1, ?_⟩
  set s' := (readBytesN SU cs.flatten.length (BufferedStream.new ⟨cs, []⟩ cwf)).2 with hs'
  obtain ⟨⟨cs0, wr⟩, f, p, m, g, wl, cwf0⟩ := s'
  dsimp only at h2 h3
  subst h2 h3
  simp [BufferedStream.read_byte, BufferedStream.fill_buffer, SU]

/-- Witness for C2: the spec's example — chunks `[1,2,3,4]` then `[5]`; five
reads return 1,2,3,4,5 and the sixth signals no more data. -/
theorem read_byte_sequence_exact_witness :
    (∀ c ∈ ([[1, 2, 3, 4], [5]] : List (List Nat)), c ≠ []) ∧
    ((readBytesN SU ([[1, 2, 3, 4], [5]] : List (List Nat)).flatten.length
        (BufferedStream.new ⟨[[1, 2, 3, 4], [5]], []⟩ true)).1 =
      ([[1, 2, 3, 4], [5]] : List (List Nat)).flatten.map some ∧
     (BufferedStream.read_byte SU
        (readBytesN SU ([[1, 2, 3, 4], [5]] : List (List Nat)).flatten.length
          (BufferedStream.new ⟨[[1, 2, 3, 4], [5]], []⟩ true)).2).1 = none) :=
  ⟨by decide, read_byte_sequence_exact [[1, 2, 3, 4], [5]] true (by decide)⟩

end Http
